import Mathlib

/-!
Verification of the Dancing-Links (DLX) exact-cover core of the repository
(files `DLSS_Final/DLSS_Final/DLSS_final.cpp` and `.idea/DLSScode/DLSScode/DLSS.cpp`).

The pointer structure is embedded as an arena of natural-number indices:
index 0 is the header sentinel `head`, indices `1..numCols` are the column
headers (in creation order), and data nodes get the following indices in
creation order.  Each C++ pointer field (`L`, `R`, `U`, `D`, `C`) becomes a
total function `Nat → Nat`; every C++ assignment becomes one `Function.update`
applied in statement order, so reads always see the current state exactly as
the C++ does.  The C++ `while`/`for` loops over the rings are modelled with
explicit fuel and return `Option`: `none` models a loop that has not finished
within the given fuel (the C++ loops only terminate on well-formed rings).
-/

namespace DLSS

/-- The mutable state of the C++ `DLX` object: the four link fields and the
column back-pointer of every node (as total functions on arena indices), the
`rowID` tag and per-column `size` counter, the `cols` and `nodes` vectors
(as lists of arena indices) and the `solution` vector.  The diagnostic
`name` string of `Column` is never read by the algorithm and is omitted. -/
@[ext]
structure DLX where
  L : Nat → Nat
  R : Nat → Nat
  U : Nat → Nat
  D : Nat → Nat
  C : Nat → Nat
  rowID : Nat → Int
  size : Nat → Int
  cols : List Nat
  nodes : List Nat
  sol : List Int

/-- One C++ assignment `x->L = v`. -/
def setL (s : DLX) (x v : Nat) : DLX := { s with L := Function.update s.L x v }

/-- One C++ assignment `x->R = v`. -/
def setR (s : DLX) (x v : Nat) : DLX := { s with R := Function.update s.R x v }

/-- One C++ assignment `x->U = v`. -/
def setU (s : DLX) (x v : Nat) : DLX := { s with U := Function.update s.U x v }

/-- One C++ assignment `x->D = v`. -/
def setD (s : DLX) (x v : Nat) : DLX := { s with D := Function.update s.D x v }

/-- The freshly constructed object before any column is added: `head` (index
0) is a self-loop in all four directions with `size = 0`, and `Column`'s
constructor makes `head.C` point to itself.  Indices not yet allocated hold
the same self-loop junk; they are never read before being allocated. -/
def emptyDLX : DLX :=
  { L := id, R := id, U := id, D := id, C := id,
    rowID := fun _ => -1, size := fun _ => 0,
    cols := [], nodes := [], sol := [] }

/-- `new Column(...)`: allocate a fresh arena index, initialized by the
`Node()` constructor to a self-loop in all directions with `rowID = -1`,
by `Column`'s constructor to `size = 0` and `C = this`, and pushed onto
the `cols` vector. -/
def newColumn (s : DLX) : DLX × Nat :=
  let c := 1 + s.cols.length + s.nodes.length
  ({ s with
      L := Function.update s.L c c, R := Function.update s.R c c,
      U := Function.update s.U c c, D := Function.update s.D c c,
      C := Function.update s.C c c,
      rowID := Function.update s.rowID c (-1),
      size := Function.update s.size c 0,
      cols := s.cols ++ [c] }, c)

/-- `DLX::insertColumn` from `DLSS_final.cpp` (insert immediately to the
right of `head`): `c->R = head.R; c->L = &head; head.R->L = c; head.R = c`. -/
def insertColumn (s : DLX) (c : Nat) : DLX :=
  let s1 := setR s c (s.R 0)
  let s2 := setL s1 c 0
  let s3 := setL s2 (s2.R 0) c
  setR s3 0 c

/-- One iteration of the constructor loop of `DLSS_final.cpp`:
`auto* c = new Column(...); cols.push_back(c); insertColumn(c);`. -/
def addColumn (s : DLX) : DLX :=
  let p := newColumn s
  insertColumn p.1 p.2

/-- The `DLX(int numCols)` constructor of `DLSS_final.cpp`. -/
def mkDLX (numCols : Nat) : DLX :=
  (List.range numCols).foldl (fun s _ => addColumn s) emptyDLX

/-- `DLX::insertColumn` from `DLSS.cpp` (insert at the left end of the
header ring): `c->R = &head; c->L = head.L; head.L->R = c; head.L = c`. -/
def insertColumnIdea (s : DLX) (c : Nat) : DLX :=
  let s1 := setR s c 0
  let s2 := setL s1 c (s1.L 0)
  let s3 := setR s2 (s2.L 0) c
  setL s3 0 c

/-- One iteration of the constructor loop of `DLSS.cpp`:
`Column* c = new Column(...); insertColumn(c); cols.push_back(c);`. -/
def addColumnIdea (s : DLX) : DLX :=
  let p := newColumn s
  insertColumnIdea p.1 p.2

/-- The `DLX(int numCols)` constructor of `DLSS.cpp`. -/
def mkDLXIdea (numCols : Nat) : DLX :=
  (List.range numCols).foldl (fun s _ => addColumnIdea s) emptyDLX

/-- `new Node()` inside `DLX::addNode`: fresh self-looped node pushed onto
the `nodes` vector.  (`C` is set to `nullptr` by the C++ constructor and is
overwritten before ever being read; the embedding leaves it unchanged until
the `n->C = c` assignment.) -/
def newNode (s : DLX) : DLX × Nat :=
  let n := 1 + s.cols.length + s.nodes.length
  ({ s with
      L := Function.update s.L n n, R := Function.update s.R n n,
      U := Function.update s.U n n, D := Function.update s.D n n,
      rowID := Function.update s.rowID n (-1),
      nodes := s.nodes ++ [n] }, n)

/-- `DLX::addNode(int colIndex, int rowID)`.  The C++ body starts with the
unchecked vector access `cols[colIndex]`; for an out-of-range index that
access has no defined behaviour, which the embedding models as `none`. -/
def addNode (s : DLX) (colIndex : Nat) (rid : Int) : Option (DLX × Nat) :=
  match s.cols.get? colIndex with
  | none => none
  | some c =>
    let p := newNode s
    let t := p.1
    let n := p.2
    -- n->D = c; n->U = c->U; c->U->D = n; c->U = n
    let t1 := setD t n c
    let t2 := setU t1 n (t1.U c)
    let t3 := setD t2 (t2.U c) n
    let t4 := setU t3 c n
    -- n->C = c; c->size++; n->rowID = rowID
    let t5 := { t4 with C := Function.update t4.C n c }
    let t6 := { t5 with size := Function.update t5.size c (t5.size c + 1) }
    let t7 := { t6 with rowID := Function.update t6.rowID n rid }
    some (t7, n)

/-- One iteration `i` of `DLX::linkRow`:
`row[i]->R = row[(i+1) % n]; row[(i+1) % n]->L = row[i];`. -/
def linkRowStep (row : List Nat) (s : DLX) (i : Nat) : DLX :=
  let a := row.getD i 0
  let b := row.getD ((i + 1) % row.length) 0
  setL (setR s a b) b a

/-- `DLX::linkRow(const std::vector<Node*>& row)`. -/
def linkRow (row : List Nat) (s : DLX) : DLX :=
  if row.isEmpty then s
  else (List.range row.length).foldl (linkRowStep row) s

/-- The body of the inner loops of `DLX::cover`:
`node->D->U = node->U; node->U->D = node->D; node->C->size--;`. -/
def spliceOut (s : DLX) (n : Nat) : DLX :=
  let s1 := setU s (s.D n) (s.U n)
  let s2 := setD s1 (s1.U n) (s1.D n)
  { s2 with size := Function.update s2.size (s2.C n) (s2.size (s2.C n) - 1) }

/-- The body of the inner loops of `DLX::uncover`:
`node->C->size++; node->D->U = node; node->U->D = node;`. -/
def spliceIn (s : DLX) (n : Nat) : DLX :=
  let s1 := { s with size := Function.update s.size (s.C n) (s.size (s.C n) + 1) }
  let s2 := setU s1 (s1.D n) n
  setD s2 (s2.U n) n

/-- The inner loop of `DLX::cover`:
`for (Node* node = row->R; node != row; node = node->R) { ... }`. -/
def coverRow (fuel : Nat) (row j : Nat) (s : DLX) : Option DLX :=
  match fuel with
  | 0 => none
  | fuel + 1 =>
    if j = row then some s
    else
      let s' := spliceOut s j
      coverRow fuel row (s'.R j) s'

/-- The outer loop of `DLX::cover`:
`for (Node* row = c->D; row != c; row = row->D) { inner loop }`. -/
def coverCols (fuel lf : Nat) (c r : Nat) (s : DLX) : Option DLX :=
  match fuel with
  | 0 => none
  | fuel + 1 =>
    if r = c then some s
    else
      match coverRow lf r (s.R r) s with
      | none => none
      | some s' => coverCols fuel lf c (s'.D r) s'

/-- `DLX::cover(Column* c)`: splice `c` out of the header ring
(`c->R->L = c->L; c->L->R = c->R;`), then splice every other node of every
row of `c`'s vertical ring out of its own column's vertical ring. -/
def cover (lf : Nat) (c : Nat) (s : DLX) : Option DLX :=
  let s1 := setL s (s.R c) (s.L c)
  let s2 := setR s1 (s1.L c) (s1.R c)
  coverCols lf lf c (s2.D c) s2

/-- The inner loop of `DLX::uncover`:
`for (Node* node = row->L; node != row; node = node->L) { ... }`. -/
def uncoverRow (fuel : Nat) (row j : Nat) (s : DLX) : Option DLX :=
  match fuel with
  | 0 => none
  | fuel + 1 =>
    if j = row then some s
    else
      let s' := spliceIn s j
      uncoverRow fuel row (s'.L j) s'

/-- The outer loop of `DLX::uncover`:
`for (Node* row = c->U; row != c; row = row->U) { inner loop }`. -/
def uncoverCols (fuel lf : Nat) (c r : Nat) (s : DLX) : Option DLX :=
  match fuel with
  | 0 => none
  | fuel + 1 =>
    if r = c then some s
    else
      match uncoverRow lf r (s.L r) s with
      | none => none
      | some s' => uncoverCols fuel lf c (s'.U r) s'

/-- `DLX::uncover(Column* c)`: the exact mirror of `cover`, finishing with
`c->R->L = c; c->L->R = c;`. -/
def uncover (lf : Nat) (c : Nat) (s : DLX) : Option DLX :=
  match uncoverCols lf lf c (s.U c) s with
  | none => none
  | some s1 =>
    let s2 := setL s1 (s1.R c) c
    some (setR s2 (s2.L c) c)

/-- The column-selection scan of `DLX::search`:
`for (auto* j = (Column*)head.R; j != &head; j = (Column*)j->R)
   if (j->size < minSize) { minSize = j->size; c = j; }`
starting from `c = nullptr` (modelled `none`) and `minSize = 1000000000`. -/
def chooseCol (fuel : Nat) (s : DLX) (j : Nat) (best : Option Nat)
    (minSize : Int) : Option (Option Nat × Int) :=
  match fuel with
  | 0 => none
  | fuel + 1 =>
    if j = 0 then some (best, minSize)
    else
      if s.size j < minSize then chooseCol fuel s (s.R j) (some j) (s.size j)
      else chooseCol fuel s (s.R j) best minSize

/-- The loop `for (Node* j = r->R; j != r; j = j->R) cover(j->C);`
of `DLX::search`. -/
def coverAllR (fuel lf : Nat) (r j : Nat) (s : DLX) : Option DLX :=
  match fuel with
  | 0 => none
  | fuel + 1 =>
    if j = r then some s
    else
      match cover lf (s.C j) s with
      | none => none
      | some s' => coverAllR fuel lf r (s'.R j) s'

/-- The loop `for (Node* j = r->L; j != r; j = j->L) uncover(j->C);`
of `DLX::search`. -/
def uncoverAllL (fuel lf : Nat) (r j : Nat) (s : DLX) : Option DLX :=
  match fuel with
  | 0 => none
  | fuel + 1 =>
    if j = r then some s
    else
      match uncover lf (s.C j) s with
      | none => none
      | some s' => uncoverAllL fuel lf r (s'.L j) s'

/-- The row loop `for (Node* r = c->D; r != c; r = r->D)` of `DLX::search`.
`rec` is the recursive call to `search` one level deeper.  When the loop
runs to completion it performs the trailing `uncover(c); return false;`.
The push is `solution.push_back(r->rowID)` and the pop after a failed
branch is `solution.pop_back()`. -/
def searchRowsAux (rec : DLX → Option (Bool × DLX)) (lf : Nat) :
    Nat → Nat → Nat → DLX → Option (Bool × DLX)
  | 0, _, _, _ => none
  | k + 1, c, r, s =>
    if r = c then
      match uncover lf c s with
      | none => none
      | some t => some (false, t)
    else
      let s1 := { s with sol := s.sol ++ [s.rowID r] }
      match coverAllR lf lf r (s1.R r) s1 with
      | none => none
      | some s2 =>
        match rec s2 with
        | none => none
        | some (true, t) => some (true, t)
        | some (false, t) =>
          match uncoverAllL lf lf r (t.L r) t with
          | none => none
          | some s3 =>
            let s4 := { s3 with sol := s3.sol.dropLast }
            searchRowsAux rec lf k c (s4.D r) s4

/-- `DLX::search()` from `DLSS_final.cpp`.  The first fuel argument bounds
the recursion depth (one unit per recursive level), the second bounds every
ring-traversal loop; a `none` result means some loop or the recursion did
not finish within the given fuel. -/
def search : Nat → Nat → DLX → Option (Bool × DLX)
  | 0, _, _ => none
  | dep + 1, lf, s =>
    if s.R 0 = 0 then some (true, s)
    else
      match chooseCol lf s (s.R 0) none 1000000000 with
      | none => none
      | some (none, _) => some (false, s)
      | some (some c, _) =>
        if s.size c = 0 then some (false, s)
        else
          match cover lf c s with
          | none => none
          | some s1 => searchRowsAux (search dep lf) lf lf c (s1.D c) s1

/-- The do-while loop of `applyInitialSudoku` for one given clue:
`Node* cur = rowNode; do { DLX::cover(cur->C); cur = cur->R; }
while (cur != rowNode);`. -/
def preselectCovers (fuel lf : Nat) (start cur : Nat) (s : DLX) : Option DLX :=
  match fuel with
  | 0 => none
  | fuel + 1 =>
    match cover lf (s.C cur) s with
    | none => none
    | some s' =>
      let nxt := s'.R cur
      if nxt = start then some s' else preselectCovers fuel lf start nxt s'

/-- The per-clue body of `applyInitialSudoku` once the node `rowNode` of the
given row has been located: `dlx.solution.push_back(rowID);` followed by the
do-while loop covering every column the row touches. -/
def preselect (fuel lf : Nat) (rowNode : Nat) (s : DLX) : Option DLX :=
  let s1 := { s with sol := s.sol ++ [s.rowID rowNode] }
  preselectCovers fuel lf rowNode rowNode s1

/-- Walk the header ring to the right starting at `j`, collecting the column
indices visited before coming back to `head` (index 0). -/
def hdrRWalkFrom (s : DLX) : Nat → Nat → Option (List Nat)
  | 0, _ => none
  | fuel + 1, j =>
    if j = 0 then some []
    else (hdrRWalkFrom s fuel (s.R j)).map (fun l => j :: l)

/-- The columns visited when walking `head.R`, `head.R->R`, ... until the
walk returns to `head`: the left-to-right order of the header ring. -/
def hdrRWalk (s : DLX) (fuel : Nat) : Option (List Nat) :=
  hdrRWalkFrom s fuel (s.R 0)

/-- Walk a column's vertical ring downward starting at `j`, collecting the
nodes visited before coming back to the column header `c`. -/
def colDWalkFrom (s : DLX) (c : Nat) : Nat → Nat → Option (List Nat)
  | 0, _ => none
  | fuel + 1, j =>
    if j = c then some []
    else (colDWalkFrom s c fuel (s.D j)).map (fun l => j :: l)

/-- The nodes reachable by following `D` pointers from column header `c`
back to itself (the live nodes of `c`'s vertical ring, top to bottom). -/
def colDWalk (s : DLX) (c : Nat) (fuel : Nat) : Option (List Nat) :=
  colDWalkFrom s c fuel (s.D c)

/-! ### Generic matrix construction (the builder layer)

The external builder of the spec constructs a matrix by creating the
columns, then, for each candidate row, calling `addNode` once per touched
column and linking the created nodes with `linkRow` — exactly the pattern
of `buildSudokuDLX`.  A `Build` records the inputs of such a construction
generically. -/

/-- One candidate row of a build: its caller-chosen `rowID` and the ordered
list of 0-based column indices it touches. -/
structure BRow where
  rid : Int
  cidx : List Nat

/-- A complete construction: the column count and the candidate rows in
creation order. -/
structure Build where
  numCols : Nat
  rows : List BRow

/-- Well-formed construction: every row is nonempty with valid, distinct
column indices, and rowIDs are pairwise distinct. -/
def WFB (B : Build) : Prop :=
  (∀ r ∈ B.rows, r.cidx ≠ [] ∧ r.cidx.Nodup ∧ ∀ i ∈ r.cidx, i < B.numCols) ∧
  (B.rows.map BRow.rid).Nodup

instance (B : Build) : Decidable (WFB B) := by
  unfold WFB
  exact inferInstance

/-- The per-row node-creation loop: one `addNode` call per column index,
returning the created nodes in order (the `rowNodes` vector of
`buildSudokuDLX`). -/
def addRowNodes (s : DLX) (rid : Int) : List Nat → Option (DLX × List Nat)
  | [] => some (s, [])
  | c :: cs =>
    match addNode s c rid with
    | none => none
    | some p =>
      match addRowNodes p.1 rid cs with
      | none => none
      | some q => some (q.1, p.2 :: q.2)

/-- Create and link one candidate row. -/
def buildRow (s : DLX) (r : BRow) : Option DLX :=
  match addRowNodes s r.rid r.cidx with
  | none => none
  | some q => some (linkRow q.2 q.1)

def buildRows : DLX → List BRow → Option DLX
  | s, [] => some s
  | s, r :: rest =>
    match buildRow s r with
    | none => none
    | some t => buildRows t rest

/-- Execute a whole construction: the `DLX(numCols)` constructor followed by
one `addNode`/`linkRow` group per candidate row. -/
def build (B : Build) : Option DLX := buildRows (mkDLX B.numCols) B.rows

/-! ### Geometry of a build: where every column and node lives in the arena -/

/-- Arena indices of the column headers, in creation order. -/
def colArena (B : Build) : List Nat := (List.range B.numCols).map (· + 1)

def rowLen (r : BRow) : Nat := r.cidx.length

def rowAt (B : Build) (i : Nat) : BRow := B.rows.getD i ⟨0, []⟩

/-- Total number of nodes created by the first `k` rows. -/
def lenUpTo (B : Build) (k : Nat) : Nat := ((B.rows.take k).map rowLen).sum

/-- Arena index of the first node of row `i`. -/
def nodeBase (B : Build) (i : Nat) : Nat := 1 + B.numCols + lenUpTo B i

/-- Arena indices of the nodes of row `i`, in creation order. -/
def nodeListOf (B : Build) (i : Nat) : List Nat :=
  (List.range (rowLen (rowAt B i))).map (fun k => nodeBase B i + k)

/-- Arena indices of the columns touched by row `i`, in creation order. -/
def rowCols (B : Build) (i : Nat) : List Nat := (rowAt B i).cidx.map (· + 1)

/-- The (node, column) pairs of row `i`. -/
def rowPairs (B : Build) (i : Nat) : List (Nat × Nat) :=
  (nodeListOf B i).zip (rowCols B i)

def ridAt (B : Build) (i : Nat) : Int := (rowAt B i).rid

/-- The nodes of row `i` lying in column `γ` (at most one for a
well-formed build). -/
def rowNodesInCol (B : Build) (i γ : Nat) : List Nat :=
  ((rowPairs B i).filter (fun p => p.2 == γ)).map Prod.fst

/-- The nodes of the first `k` rows lying in column `γ`, in creation
order: the vertical ring of `γ` right after those rows were built. -/
def colMembersUpTo (B : Build) (k γ : Nat) : List Nat :=
  (List.range k).flatMap (fun i => rowNodesInCol B i γ)

/-- All node arena indices of the build, in creation order. -/
def allNodes (B : Build) : List Nat :=
  (List.range (lenUpTo B B.rows.length)).map (fun t => 1 + B.numCols + t)

/-- Header-ring member list produced by the `DLSS_final.cpp` constructor:
insertion immediately right of `head` reverses the creation order. -/
def hdrFinal (n : Nat) : List Nat := (List.range n).reverse.map (· + 1)

/-- Header-ring member list claimed by the spec (creation order). -/
def hdrInOrder (n : Nat) : List Nat := (List.range n).map (· + 1)

/-! ### Generic theory of circular doubly-linked rings

A ring is described by a pair of pointer functions `nxt`/`prv` and the list
of its members.  `Chain2 nxt prv a l b` says that starting from `a` the
`nxt` pointers run through `l` and end at `b`, with `prv` inverting every
link. -/

/-- Doubly-linked chain from `a` through the members of `l` to `b`. -/
def Chain2 (nxt prv : Nat → Nat) : Nat → List Nat → Nat → Prop
  | a, [], b => nxt a = b ∧ prv b = a
  | a, x :: xs, b => nxt a = x ∧ prv x = a ∧ Chain2 nxt prv x xs b

instance Chain2.dec (nxt prv : Nat → Nat) :
    ∀ a (l : List Nat) b, Decidable (Chain2 nxt prv a l b)
  | _, [], _ => inferInstanceAs (Decidable (_ ∧ _))
  | a, x :: xs, b =>
    have := Chain2.dec nxt prv x xs b
    inferInstanceAs (Decidable (_ ∧ _ ∧ _))

/-- Circular doubly-linked ring whose members, in `nxt` order, are `l`. -/
def Ring2 (nxt prv : Nat → Nat) : List Nat → Prop
  | [] => True
  | x :: xs => Chain2 nxt prv x xs x

instance Ring2.dec (nxt prv : Nat → Nat) : ∀ l, Decidable (Ring2 nxt prv l)
  | [] => inferInstanceAs (Decidable True)
  | x :: xs => inferInstanceAs (Decidable (Chain2 nxt prv x xs x))

theorem chain2_snoc {nxt prv : Nat → Nat} {a m b : Nat} :
    ∀ {l : List Nat}, Chain2 nxt prv a l m → nxt m = b → prv b = m →
      Chain2 nxt prv a (l ++ [m]) b
  | [], h, h1, h2 => ⟨h.1, h.2, h1, h2⟩
  | x :: xs, h, h1, h2 => ⟨h.1, h.2.1, chain2_snoc h.2.2 h1 h2⟩

theorem chain2_reverse {nxt prv : Nat → Nat} :
    ∀ {l : List Nat} {a b : Nat}, Chain2 nxt prv a l b →
      Chain2 prv nxt b l.reverse a
  | [], _, _, h => ⟨h.2, h.1⟩
  | x :: xs, a, b, h => by
    have ih := chain2_reverse h.2.2
    simpa using chain2_snoc ih h.2.1 h.1

theorem chain2_append_cons {nxt prv : Nat → Nat} {x b : Nat} :
    ∀ {l1 : List Nat} {a : Nat} {l2 : List Nat},
      Chain2 nxt prv a (l1 ++ x :: l2) b ↔
        Chain2 nxt prv a l1 x ∧ Chain2 nxt prv x l2 b
  | [], a, l2 => by
    constructor
    · exact fun h => ⟨⟨h.1, h.2.1⟩, h.2.2⟩
    · exact fun h => ⟨h.1.1, h.1.2, h.2⟩
  | y :: l1, a, l2 => by
    constructor
    · exact fun h => ⟨⟨h.1, h.2.1, (chain2_append_cons.mp h.2.2).1⟩,
        (chain2_append_cons.mp h.2.2).2⟩
    · exact fun h => ⟨h.1.1, h.1.2.1, chain2_append_cons.mpr ⟨h.1.2.2, h.2⟩⟩

/-- Every link of a chain is doubly consistent: each member's `nxt` is
inverted by `prv`. -/
theorem chain2_cond_mem {nxt prv : Nat → Nat} :
    ∀ {l : List Nat} {a b : Nat}, Chain2 nxt prv a l b → ∀ x ∈ l,
      prv (nxt x) = x ∧ nxt (prv x) = x
  | [], _, _, _, x, hx => absurd hx (List.not_mem_nil x)
  | y :: xs, a, b, h, x, hx => by
    rcases List.mem_cons.mp hx with rfl | hx
    · refine ⟨?_, by rw [h.2.1, h.1]⟩
      cases xs with
      | nil => rw [h.2.2.1, h.2.2.2]
      | cons z zs => rw [h.2.2.1, h.2.2.2.1]
    · exact chain2_cond_mem h.2.2 x hx

/-- Every member of a ring satisfies the local double-link condition. -/
theorem ring2_cond_mem {nxt prv : Nat → Nat} {l : List Nat}
    (h : Ring2 nxt prv l) : ∀ x ∈ l, prv (nxt x) = x ∧ nxt (prv x) = x := by
  cases l with
  | nil => intro x hx; exact absurd hx (List.not_mem_nil x)
  | cons c xs =>
    intro x hx
    rcases List.mem_cons.mp hx with rfl | hx
    · refine ⟨?_, ?_⟩
      · cases xs with
        | nil => rw [h.1, h.2]
        | cons z zs => rw [h.1, h.2.1]
      · have : Chain2 prv nxt x xs.reverse x := chain2_reverse h
        cases hr : xs.reverse with
        | nil =>
          rw [hr] at this; rw [this.1, this.2]
        | cons z zs =>
          rw [hr] at this; rw [this.1, this.2.1]
    · exact chain2_cond_mem h x hx

/-- Members' successors stay inside the ring. -/
theorem chain2_nxt_mem {nxt prv : Nat → Nat} :
    ∀ {l : List Nat} {a b : Nat}, Chain2 nxt prv a l b → ∀ x ∈ a :: l,
      nxt x ∈ l ++ [b]
  | [], a, b, h, x, hx => by
    rcases List.mem_cons.mp hx with rfl | hx
    · simp [h.1]
    · exact absurd hx (List.not_mem_nil x)
  | y :: xs, a, b, h, x, hx => by
    rcases List.mem_cons.mp hx with rfl | hx
    · simp [h.1]
    · have := chain2_nxt_mem h.2.2 x hx
      simpa using Or.inr (by simpa using this)

theorem ring2_nxt_mem {nxt prv : Nat → Nat} {l : List Nat}
    (h : Ring2 nxt prv l) : ∀ x ∈ l, nxt x ∈ l := by
  cases l with
  | nil => intro x hx; exact absurd hx (List.not_mem_nil x)
  | cons c xs =>
    intro x hx
    have := chain2_nxt_mem h x hx
    rcases List.mem_append.mp this with h1 | h1
    · exact List.mem_cons_of_mem _ h1
    · simp at h1; simp [h1]

/-- `StepsTo f stop a l`: starting from `a` and repeatedly applying `f`, a
loop with exit test `= stop` processes exactly the elements of `l` (none of
which is `stop`) and then reaches `stop`. -/
def StepsTo (f : Nat → Nat) (stop : Nat) : Nat → List Nat → Prop
  | a, [] => a = stop
  | a, x :: xs => a = x ∧ x ≠ stop ∧ StepsTo f stop (f x) xs

theorem chain2_stepsTo {nxt prv : Nat → Nat} {c : Nat} :
    ∀ {l : List Nat} {a : Nat}, Chain2 nxt prv a l c → (∀ x ∈ l, x ≠ c) →
      StepsTo nxt c (nxt a) l
  | [], a, h, _ => h.1
  | x :: xs, a, h, hne =>
    ⟨h.1, hne x (List.mem_cons_self x xs),
      chain2_stepsTo h.2.2 (fun y hy => hne y (List.mem_cons_of_mem x hy))⟩

/-- A loop following `nxt` from `nxt c` with exit test `= c` over a ring
`c :: l` processes exactly `l`. -/
theorem ring2_stepsTo {nxt prv : Nat → Nat} {c : Nat} {l : List Nat}
    (h : Ring2 nxt prv (c :: l)) (hn : (c :: l).Nodup) :
    StepsTo nxt c (nxt c) l :=
  chain2_stepsTo h (fun x hx hxc => (List.nodup_cons.mp hn).1 (hxc ▸ hx))

/-- A loop following `prv` from `prv c` with exit test `= c` over a ring
`c :: l` processes exactly `l.reverse`. -/
theorem ring2_stepsTo_rev {nxt prv : Nat → Nat} {c : Nat} {l : List Nat}
    (h : Ring2 nxt prv (c :: l)) (hn : (c :: l).Nodup) :
    StepsTo prv c (prv c) l.reverse := by
  have hrev : Ring2 prv nxt (c :: l.reverse) := chain2_reverse h
  have hn' : (c :: l.reverse).Nodup := by
    rw [List.nodup_cons] at hn ⊢
    exact ⟨fun hc => hn.1 (List.mem_reverse.mp hc), List.nodup_reverse.mpr hn.2⟩
  exact ring2_stepsTo hrev hn'

theorem ring2_prv_mem {nxt prv : Nat → Nat} {l : List Nat}
    (h : Ring2 nxt prv l) : ∀ x ∈ l, prv x ∈ l := by
  cases l with
  | nil => intro x hx; exact absurd hx (List.not_mem_nil x)
  | cons c xs =>
    have hrev : Ring2 prv nxt (c :: xs.reverse) := chain2_reverse h
    intro x hx
    have hx' : x ∈ c :: xs.reverse := by
      rcases List.mem_cons.mp hx with rfl | hx
      · exact List.mem_cons_self _ _
      · exact List.mem_cons_of_mem _ (List.mem_reverse.mpr hx)
    have := ring2_nxt_mem hrev x hx'
    rcases List.mem_cons.mp this with h1 | h1
    · simp [h1]
    · exact List.mem_cons_of_mem _ (List.mem_reverse.mp h1)

/-! ### The representation invariant tying a state to a build -/

/-- Abstraction of a reachable search state: the live header columns in
ring order, and, per row index, whether the row is fully live (`none`) or
currently held by the covered column `some γ` whose `cover` call spliced
its other nodes out. -/
structure Abs where
  hdr : List Nat
  held : Nat → Option Nat

/-- Whether row `i` currently contributes its node to column `γ`'s
vertical ring: live rows contribute everywhere, a held row only inside the
column holding it. -/
def liveIn (held : Nat → Option Nat) (i γ : Nat) : Bool :=
  match held i with
  | none => true
  | some δ => δ == γ

/-- The members of column `γ`'s vertical ring in abstract state `A`, in
creation order. -/
def vrOf (B : Build) (A : Abs) (γ : Nat) : List Nat :=
  (List.range B.rows.length).flatMap
    (fun i => if liveIn A.held i γ then rowNodesInCol B i γ else [])

/-- Consistency of a row's hold state with the live column set. -/
def heldOK (B : Build) (A : Abs) (i : Nat) : Prop :=
  match A.held i with
  | none => ∀ γ ∈ rowCols B i, γ ∈ A.hdr
  | some δ => δ ∈ colArena B ∧ δ ∉ A.hdr

instance heldOK.dec (B : Build) (A : Abs) (i : Nat) :
    Decidable (heldOK B A i) := by
  unfold heldOK
  rcases hh : A.held i with _ | δ
  · exact inferInstance
  · exact inferInstance

/-- The representation invariant: state `s` is the dancing-links structure
of build `B` in abstract search state `A` — header ring as listed in
`A.hdr`, vertical rings as dictated by the hold states, sizes matching the
ring lengths, row rings and static per-node fields intact. -/
def StateRepr (B : Build) (s : DLX) (A : Abs) : Prop :=
  WFB B ∧
  s.cols = colArena B ∧
  s.nodes = allNodes B ∧
  Ring2 s.R s.L (0 :: A.hdr) ∧
  (0 :: A.hdr).Nodup ∧
  (∀ c ∈ A.hdr, c ∈ colArena B) ∧
  (∀ γ ∈ colArena B, Ring2 s.D s.U (γ :: vrOf B A γ) ∧
    s.size γ = ((vrOf B A γ).length : Int)) ∧
  (∀ i, i < B.rows.length → Ring2 s.R s.L (nodeListOf B i)) ∧
  (∀ i, i < B.rows.length → ∀ p ∈ rowPairs B i,
    s.C p.1 = p.2 ∧ s.rowID p.1 = ridAt B i) ∧
  (∀ i, i < B.rows.length → heldOK B A i)

instance StateRepr.dec (B : Build) (s : DLX) (A : Abs) :
    Decidable (StateRepr B s A) := by
  unfold StateRepr
  exact inferInstance

/-- The abstract state right after a well-formed build: all columns live
(in the header order produced by the constructor), all rows live. -/
def Abs0 (B : Build) : Abs := ⟨hdrFinal B.numCols, fun _ => none⟩

/-- Abstract effect of `cover c`: the column leaves the header ring and
every live row touching it becomes held by it. -/
def coverAbs (B : Build) (c : Nat) (A : Abs) : Abs :=
  { hdr := A.hdr.erase c,
    held := fun i =>
      match A.held i with
      | some δ => some δ
      | none =>
        if i < B.rows.length ∧ c ∈ rowCols B i then some c else none }

/-- The local double-link condition at one node: splicing the node out and
back in is possible exactly when its neighbours point back at it. -/
def RC (nxt prv : Nat → Nat) (j : Nat) : Prop :=
  prv (nxt j) = j ∧ nxt (prv j) = j

/-- After splicing `j1` out of its ring (`nxt (prv j1) := nxt j1;
prv (nxt j1) := prv j1`), every other node that satisfied the local
double-link condition still satisfies it. -/
theorem rc_update {nxt prv : Nat → Nat} {j1 j2 : Nat}
    (h1 : RC nxt prv j1) (h2 : RC nxt prv j2) (hne : j1 ≠ j2) :
    RC (Function.update nxt (prv j1) (nxt j1))
      (Function.update prv (nxt j1) (prv j1)) j2 := by
  obtain ⟨h1a, h1b⟩ := h1
  obtain ⟨h2a, h2b⟩ := h2
  constructor
  · by_cases e1 : j2 = prv j1
    · rw [e1, Function.update_same, Function.update_same]
    · rw [Function.update_noteq e1 _ nxt]
      have hne2 : nxt j2 ≠ nxt j1 := fun h => hne (by rw [← h1a, ← h, h2a])
      rw [Function.update_noteq hne2 _ prv]
      exact h2a
  · by_cases e1 : j2 = nxt j1
    · rw [e1, Function.update_same, Function.update_same]
    · rw [Function.update_noteq e1 _ prv]
      have hne2 : prv j2 ≠ prv j1 := fun h => hne (by rw [← h1b, ← h, h2b])
      rw [Function.update_noteq hne2 _ nxt]
      exact h2b

/-- A chain is insensitive to pointer values outside of it: `nxt` is only
read on `a :: l` and `prv` only on `l ++ [b]`. -/
theorem chain2_of_agree {nxt prv nxt' prv' : Nat → Nat} :
    ∀ {l : List Nat} {a b : Nat}, Chain2 nxt prv a l b →
      (∀ x ∈ a :: l, nxt' x = nxt x) → (∀ x ∈ l ++ [b], prv' x = prv x) →
      Chain2 nxt' prv' a l b
  | [], a, b, h, hf, hg => by
    refine ⟨?_, ?_⟩
    · rw [hf a (List.mem_cons_self _ _), h.1]
    · rw [hg b (by simp), h.2]
  | x :: xs, a, b, h, hf, hg => by
    refine ⟨?_, ?_, ?_⟩
    · rw [hf a (List.mem_cons_self _ _), h.1]
    · rw [hg x (by simp), h.2.1]
    · exact chain2_of_agree h.2.2
        (fun y hy => hf y (List.mem_cons_of_mem a hy))
        (fun y hy => hg y (by
          rcases List.mem_append.mp hy with h' | h'
          · exact List.mem_append.mpr (Or.inl (List.mem_cons_of_mem x h'))
          · exact List.mem_append.mpr (Or.inr h')))

/-- The predecessor of a chain's endpoint is a member of the chain. -/
theorem chain2_prv_mem_self {nxt prv : Nat → Nat} :
    ∀ {l : List Nat} {a b : Nat}, Chain2 nxt prv a l b → prv b ∈ a :: l
  | [], _, _, h => by simp [h.2]
  | x :: xs, a, b, h =>
    List.mem_cons_of_mem a (chain2_prv_mem_self h.2.2)

/-- Auxiliary chain form of the ring-erase lemma: the splice-out pointer
writes `nxt (prv j) := nxt j; prv (nxt j) := prv j` turn a chain through
`l1 ++ j :: l2` into the chain through `l1 ++ l2`. -/
theorem chain2_erase_aux {nxt prv : Nat → Nat} {j c : Nat} {l2 : List Nat} :
    ∀ (l1 : List Nat) (a : Nat),
      Chain2 nxt prv a (l1 ++ j :: l2) c →
      (a :: l1 ++ j :: l2).Nodup → c ∉ l1 ++ j :: l2 →
      Chain2 (Function.update nxt (prv j) (nxt j))
        (Function.update prv (nxt j) (prv j)) a (l1 ++ l2) c
  | [], a, h, hn, hc => by
    simp only [List.nil_append] at h hn hc ⊢
    obtain ⟨haj, hja, h2⟩ := h
    have hajn : a ∉ j :: l2 := (List.nodup_cons.mp hn).1
    have hjl2 : j ∉ l2 := (List.nodup_cons.mp (List.nodup_cons.mp hn).2).1
    have hl2n : l2.Nodup := (List.nodup_cons.mp (List.nodup_cons.mp hn).2).2
    cases l2 with
    | nil =>
      obtain ⟨hjc, hcj⟩ := h2
      refine ⟨?_, ?_⟩
      · rw [hja, Function.update_same, hjc]
      · rw [← hjc, Function.update_same, hja]
    | cons x xs =>
      obtain ⟨hjx, hxj, h3⟩ := h2
      refine ⟨?_, ?_, ?_⟩
      · rw [hja, Function.update_same, hjx]
      · rw [← hjx, Function.update_same, hja]
      · refine chain2_of_agree h3 ?_ ?_
        · intro y hy
          have hyp : y ≠ prv j := by
            rw [hja]
            intro h'
            exact hajn (h' ▸ List.mem_cons_of_mem j hy)
          exact Function.update_noteq hyp _ nxt
        · intro y hy
          have hyn : y ≠ nxt j := by
            rw [hjx]
            intro h'
            rcases List.mem_append.mp hy with h'' | h''
            · exact (List.nodup_cons.mp hl2n).1 (h' ▸ h'')
            · simp only [List.mem_singleton] at h''
              exact hc (by simp [← h', h''])
          exact Function.update_noteq hyn _ prv
  | y :: l1, a, h, hn, hc => by
    simp only [List.cons_append] at h hn hc ⊢
    obtain ⟨hay, hya, h2⟩ := h
    have hn2 : (y :: l1 ++ j :: l2).Nodup := (List.nodup_cons.mp hn).2
    have ih := chain2_erase_aux l1 y h2 hn2
      (fun hmem => hc (List.mem_cons_of_mem y hmem))
    refine ⟨?_, ?_, ih⟩
    · have hane : a ≠ prv j := by
        have hdec := (chain2_append_cons.mp h2).1
        have hmem : prv j ∈ y :: l1 := chain2_prv_mem_self hdec
        intro h'
        apply (List.nodup_cons.mp hn).1
        rw [h']
        rcases List.mem_cons.mp hmem with h'' | h''
        · exact h'' ▸ List.mem_cons_self _ _
        · exact List.mem_cons_of_mem _ (List.mem_append.mpr (Or.inl h''))
      rw [Function.update_noteq hane _ nxt, hay]
    · have hyne : y ≠ nxt j := by
        have hdec := (chain2_append_cons.mp h2).2
        cases l2 with
        | nil =>
          rw [hdec.1]
          intro h'
          exact hc (by simp [h'])
        | cons x xs =>
          rw [hdec.1]
          intro h'
          exact (List.nodup_cons.mp hn2).1 (by simp [h'])
      rw [Function.update_noteq hyne _ prv, hya]

/-! ### Characterization of the splice steps -/

theorem spliceOut_L (s : DLX) (n : Nat) : (spliceOut s n).L = s.L := rfl

theorem spliceOut_R (s : DLX) (n : Nat) : (spliceOut s n).R = s.R := rfl

theorem spliceOut_C (s : DLX) (n : Nat) : (spliceOut s n).C = s.C := rfl

theorem spliceOut_rowID (s : DLX) (n : Nat) :
    (spliceOut s n).rowID = s.rowID := rfl

theorem spliceOut_cols (s : DLX) (n : Nat) : (spliceOut s n).cols = s.cols := rfl

theorem spliceOut_nodes (s : DLX) (n : Nat) :
    (spliceOut s n).nodes = s.nodes := rfl

theorem spliceOut_sol (s : DLX) (n : Nat) : (spliceOut s n).sol = s.sol := rfl

theorem spliceOut_U (s : DLX) (n : Nat) :
    (spliceOut s n).U = Function.update s.U (s.D n) (s.U n) := rfl

theorem spliceOut_D (s : DLX) (n : Nat) :
    (spliceOut s n).D = Function.update s.D (s.U n) (s.D n) := by
  show Function.update s.D (Function.update s.U (s.D n) (s.U n) n) (s.D n) = _
  by_cases h : n = s.D n
  · rw [Function.update_apply, if_pos h]
  · rw [Function.update_noteq h _ s.U]

theorem spliceOut_size (s : DLX) (n : Nat) :
    (spliceOut s n).size =
      Function.update s.size (s.C n) (s.size (s.C n) - 1) := rfl

theorem spliceIn_L (s : DLX) (n : Nat) : (spliceIn s n).L = s.L := rfl

theorem spliceIn_R (s : DLX) (n : Nat) : (spliceIn s n).R = s.R := rfl

theorem spliceIn_C (s : DLX) (n : Nat) : (spliceIn s n).C = s.C := rfl

theorem spliceIn_rowID (s : DLX) (n : Nat) :
    (spliceIn s n).rowID = s.rowID := rfl

theorem spliceIn_cols (s : DLX) (n : Nat) : (spliceIn s n).cols = s.cols := rfl

theorem spliceIn_nodes (s : DLX) (n : Nat) : (spliceIn s n).nodes = s.nodes := rfl

theorem spliceIn_sol (s : DLX) (n : Nat) : (spliceIn s n).sol = s.sol := rfl

theorem spliceIn_U (s : DLX) (n : Nat) :
    (spliceIn s n).U = Function.update s.U (s.D n) n := rfl

theorem spliceIn_size (s : DLX) (n : Nat) :
    (spliceIn s n).size =
      Function.update s.size (s.C n) (s.size (s.C n) + 1) := rfl

theorem spliceIn_D (s : DLX) (n : Nat) :
    (spliceIn s n).D =
      Function.update s.D (Function.update s.U (s.D n) n n) n := rfl

/-- Re-updating a point back to the value the function had there cancels a
previous update at that point. -/
theorem update_update_cancel (f : Nat → Nat) (a v b : Nat) (h : f a = b) :
    Function.update (Function.update f a v) a b = f := by
  rw [Function.update_idem, ← h, Function.update_eq_self]

theorem update_update_cancel_int (f : Nat → Int) (a : Nat) (v b : Int)
    (h : f a = b) : Function.update (Function.update f a v) a b = f := by
  rw [Function.update_idem, ← h, Function.update_eq_self]

/-- Splicing a node back in (`uncover`'s inner body) exactly undoes
splicing it out (`cover`'s inner body), provided the node's vertical
neighbours pointed back at it. -/
theorem spliceIn_spliceOut (s : DLX) (n : Nat)
    (h1 : s.U (s.D n) = n) (h2 : s.D (s.U n) = n) :
    spliceIn (spliceOut s n) n = s := by
  have hDn : (spliceOut s n).D n = s.D n := by
    rw [spliceOut_D, Function.update_apply]
    split <;> rfl
  have hUn : (spliceOut s n).U n = s.U n := by
    rw [spliceOut_U, Function.update_apply]
    split <;> rfl
  have hs2 : Function.update (spliceOut s n).U ((spliceOut s n).D n) n n
      = s.U n := by
    rw [hDn, Function.update_apply]
    split
    · next hn =>
      have hUnn : s.U n = n := by
        conv_lhs => rw [hn]
        exact h1
      exact hUnn.symm
    · exact hUn
  have hU : (spliceIn (spliceOut s n) n).U = s.U := by
    rw [spliceIn_U, hDn, spliceOut_U,
      update_update_cancel s.U (s.D n) (s.U n) n h1]
  have hD : (spliceIn (spliceOut s n) n).D = s.D := by
    rw [spliceIn_D, hs2, spliceOut_D,
      update_update_cancel s.D (s.U n) (s.D n) n h2]
  have hsize : (spliceIn (spliceOut s n) n).size = s.size := by
    rw [spliceIn_size, spliceOut_C, spliceOut_size, Function.update_same,
      sub_add_cancel,
      update_update_cancel_int s.size (s.C n) _ _ rfl]
  exact DLX.ext rfl rfl hU hD rfl rfl hsize rfl rfl rfl

theorem foldOut_R (l : List Nat) : ∀ s : DLX, (l.foldl spliceOut s).R = s.R := by
  induction l with
  | nil => intro s; rfl
  | cons a l ih => intro s; rw [List.foldl_cons, ih, spliceOut_R]

theorem foldOut_L (l : List Nat) : ∀ s : DLX, (l.foldl spliceOut s).L = s.L := by
  induction l with
  | nil => intro s; rfl
  | cons a l ih => intro s; rw [List.foldl_cons, ih, spliceOut_L]

theorem foldOut_C (l : List Nat) : ∀ s : DLX, (l.foldl spliceOut s).C = s.C := by
  induction l with
  | nil => intro s; rfl
  | cons a l ih => intro s; rw [List.foldl_cons, ih, spliceOut_C]

theorem foldOut_rowID (l : List Nat) :
    ∀ s : DLX, (l.foldl spliceOut s).rowID = s.rowID := by
  induction l with
  | nil => intro s; rfl
  | cons a l ih => intro s; rw [List.foldl_cons, ih, spliceOut_rowID]

theorem foldOut_cols (l : List Nat) :
    ∀ s : DLX, (l.foldl spliceOut s).cols = s.cols := by
  induction l with
  | nil => intro s; rfl
  | cons a l ih => intro s; rw [List.foldl_cons, ih, spliceOut_cols]

theorem foldOut_nodes (l : List Nat) :
    ∀ s : DLX, (l.foldl spliceOut s).nodes = s.nodes := by
  induction l with
  | nil => intro s; rfl
  | cons a l ih => intro s; rw [List.foldl_cons, ih, spliceOut_nodes]

theorem foldOut_sol (l : List Nat) :
    ∀ s : DLX, (l.foldl spliceOut s).sol = s.sol := by
  induction l with
  | nil => intro s; rfl
  | cons a l ih => intro s; rw [List.foldl_cons, ih, spliceOut_sol]

/-- Splicing out preserves the local double-link condition of the other
still-linked nodes (DLX-level form of `rc_update`). -/
theorem rc_spliceOut (s : DLX) {j1 j2 : Nat} (h1 : RC s.D s.U j1)
    (h2 : RC s.D s.U j2) (hne : j1 ≠ j2) :
    RC (spliceOut s j1).D (spliceOut s j1).U j2 := by
  rw [spliceOut_D, spliceOut_U]
  exact rc_update h1 h2 hne

/-- Folding the splice-in step over the reversed list exactly undoes folding
the splice-out step over the list: the heart of `uncover`'s restoration. -/
theorem foldIn_foldOut (l : List Nat) : ∀ s : DLX, l.Nodup →
    (∀ j ∈ l, RC s.D s.U j) →
    l.reverse.foldl spliceIn (l.foldl spliceOut s) = s := by
  induction l with
  | nil => intro s _ _; rfl
  | cons a l ih =>
    intro s hn hrc
    have hna : a ∉ l := (List.nodup_cons.mp hn).1
    have hrc' : ∀ j ∈ l, RC (spliceOut s a).D (spliceOut s a).U j :=
      fun j hj =>
        rc_spliceOut s (hrc a (List.mem_cons_self _ _))
          (hrc j (List.mem_cons_of_mem a hj)) (fun h => hna (h ▸ hj))
    rw [List.reverse_cons, List.foldl_cons, List.foldl_append,
      ih (spliceOut s a) (List.nodup_cons.mp hn).2 hrc', List.foldl_cons,
      List.foldl_nil]
    exact spliceIn_spliceOut s a (hrc a (List.mem_cons_self _ _)).1
      (hrc a (List.mem_cons_self _ _)).2

/-- Ring-erase: splicing a member `j` out of a ring `c :: l` (by the two
pointer writes of `cover`'s inner loop) leaves the ring on `c :: l.erase j`. -/
theorem ring2_erase {nxt prv : Nat → Nat} {c j : Nat} {l : List Nat}
    (h : Ring2 nxt prv (c :: l)) (hn : (c :: l).Nodup) (hj : j ∈ l) :
    Ring2 (Function.update nxt (prv j) (nxt j))
      (Function.update prv (nxt j) (prv j)) (c :: l.erase j) := by
  obtain ⟨l1, l2, rfl⟩ := List.append_of_mem hj
  have hjl1 : j ∉ l1 := by
    have hd := (List.nodup_append.mp (List.nodup_cons.mp hn).2).2.2
    intro hmem
    exact hd hmem (List.mem_cons_self _ _)
  have herase : (l1 ++ j :: l2).erase j = l1 ++ l2 := by
    rw [List.erase_append_right _ hjl1, List.erase_cons_head]
  rw [herase]
  have hc : c ∉ l1 ++ j :: l2 := (List.nodup_cons.mp hn).1
  exact chain2_erase_aux l1 c h hn hc

/-- Inserting a fresh node right after the head of a ring (the pointer
writes of `insertColumn`): the ring gains the node as its first member. -/
theorem ring2_cons_fresh {f g : Nat → Nat} {c n : Nat} {l : List Nat}
    (h : Ring2 f g (c :: l)) (hn : (c :: l).Nodup) (hf : n ∉ c :: l) :
    Ring2 (Function.update (Function.update f n (f c)) c n)
      (Function.update (Function.update g n c) (f c) n) (c :: n :: l) := by
  have hnc : n ≠ c := fun h' => hf (h' ▸ List.mem_cons_self _ _)
  have hfc : f c ∈ c :: l := ring2_nxt_mem h c (List.mem_cons_self _ _)
  have hnfc : n ≠ f c := fun h' => hf (h' ▸ hfc)
  refine ⟨Function.update_same _ _ _, ?_, ?_⟩
  · rw [Function.update_noteq hnfc _ _, Function.update_same]
  · cases l with
    | nil =>
      obtain ⟨hfcc, hgcc⟩ := h
      refine ⟨?_, ?_⟩
      · rw [Function.update_noteq hnc _ _, Function.update_same, hfcc]
      · rw [hfcc, Function.update_same]
    | cons x xs =>
      obtain ⟨hcx, hgx, h3⟩ := h
      have hcxxs : c ∉ x :: xs := (List.nodup_cons.mp hn).1
      have hxxs : x ∉ xs := (List.nodup_cons.mp (List.nodup_cons.mp hn).2).1
      refine ⟨?_, ?_, ?_⟩
      · rw [Function.update_noteq hnc _ _, Function.update_same, hcx]
      · rw [← hcx, Function.update_same]
      · refine chain2_of_agree h3 ?_ ?_
        · intro y hy
          have hy1 : y ≠ c := fun h' => hcxxs (h' ▸ hy)
          have hy2 : y ≠ n := fun h' => hf (h' ▸ List.mem_cons_of_mem c hy)
          rw [Function.update_noteq hy1 _ _, Function.update_noteq hy2 _ _]
        · intro y hy
          have hy1 : y ≠ f c := by
            rw [hcx]
            rcases List.mem_append.mp hy with h' | h'
            · exact fun h'' => hxxs (h'' ▸ h')
            · simp only [List.mem_singleton] at h'
              exact fun h'' => hcxxs (h'' ▸ h' ▸ List.mem_cons_self _ _)
          have hy2 : y ≠ n := by
            rcases List.mem_append.mp hy with h' | h'
            · exact fun h'' => hf (h'' ▸ List.mem_cons_of_mem c
                (List.mem_cons_of_mem x h'))
            · simp only [List.mem_singleton] at h'
              exact fun h'' => hnc (h''.symm.trans h')
          rw [Function.update_noteq hy1 _ _, Function.update_noteq hy2 _ _]

/-- Inserting a fresh node at the bottom of a vertical ring (the pointer
writes of `addNode`): the ring gains the node as its last member. -/
theorem ring2_insert_bottom {D U : Nat → Nat} {c n : Nat} {l : List Nat}
    (h : Ring2 D U (c :: l)) (hn : (c :: l).Nodup) (hf : n ∉ c :: l) :
    Ring2 (Function.update (Function.update D n c) (U c) n)
      (Function.update (Function.update U n (U c)) c n) (c :: (l ++ [n])) := by
  have hrev : Ring2 U D (c :: l.reverse) := chain2_reverse h
  have hnrev : (c :: l.reverse).Nodup := by
    rw [List.nodup_cons] at hn ⊢
    exact ⟨fun hc => hn.1 (List.mem_reverse.mp hc), List.nodup_reverse.mpr hn.2⟩
  have hfrev : n ∉ c :: l.reverse := by
    intro hmem
    rcases List.mem_cons.mp hmem with h' | h'
    · exact hf (h' ▸ List.mem_cons_self _ _)
    · exact hf (List.mem_cons_of_mem c (List.mem_reverse.mp h'))
  have := ring2_cons_fresh hrev hnrev hfrev
  have hback := chain2_reverse this
  simpa using hback

/-! ### Geometry lemmas -/

theorem lenUpTo_succ (B : Build) {k : Nat} (hk : k < B.rows.length) :
    lenUpTo B (k + 1) = lenUpTo B k + rowLen (rowAt B k) := by
  unfold lenUpTo
  have h1 : B.rows[k]? = some B.rows[k] := List.getElem?_eq_getElem hk
  rw [List.take_succ, List.map_append, List.sum_append, h1]
  have h2 : rowAt B k = B.rows[k] := by
    unfold rowAt
    rw [List.getD_eq_getElem?_getD, h1]
    rfl
  simp [h2]

theorem lenUpTo_le_succ (B : Build) (k : Nat) :
    lenUpTo B k ≤ lenUpTo B (k + 1) := by
  by_cases hk : k < B.rows.length
  · rw [lenUpTo_succ B hk]; omega
  · unfold lenUpTo
    rw [List.take_of_length_le (by omega), List.take_of_length_le (by omega)]

theorem lenUpTo_mono (B : Build) {i j : Nat} (h : i ≤ j) :
    lenUpTo B i ≤ lenUpTo B j := by
  induction j with
  | zero =>
    have : i = 0 := by omega
    rw [this]
  | succ j ih =>
    rcases Nat.lt_or_ge i (j + 1) with h' | h'
    · exact le_trans (ih (by omega)) (lenUpTo_le_succ B j)
    · have : i = j + 1 := by omega
      rw [this]

theorem lenUpTo_row_le (B : Build) {k : Nat} (hk : k < B.rows.length) :
    lenUpTo B k + rowLen (rowAt B k) ≤ lenUpTo B B.rows.length := by
  rw [← lenUpTo_succ B hk]
  exact lenUpTo_mono B (by omega)

theorem nodeBase_succ (B : Build) {k : Nat} (hk : k < B.rows.length) :
    nodeBase B (k + 1) = nodeBase B k + rowLen (rowAt B k) := by
  unfold nodeBase
  rw [lenUpTo_succ B hk]
  omega

theorem nodeBase_mono (B : Build) {i j : Nat} (h : i ≤ j) :
    nodeBase B i ≤ nodeBase B j := by
  unfold nodeBase
  have := lenUpTo_mono B h
  omega

theorem mem_nodeListOf {B : Build} {i n : Nat} :
    n ∈ nodeListOf B i ↔
      nodeBase B i ≤ n ∧ n < nodeBase B i + rowLen (rowAt B i) := by
  unfold nodeListOf
  simp only [List.mem_map, List.mem_range]
  constructor
  · rintro ⟨k, hk, rfl⟩; omega
  · rintro ⟨h1, h2⟩
    exact ⟨n - nodeBase B i, by omega, by omega⟩

theorem nodeListOf_nodup (B : Build) (i : Nat) : (nodeListOf B i).Nodup :=
  List.Nodup.map (fun a b h => by omega) (List.nodup_range _)

theorem nodeListOf_length (B : Build) (i : Nat) :
    (nodeListOf B i).length = rowLen (rowAt B i) := by
  unfold nodeListOf
  simp

theorem nodeListOf_disjoint (B : Build) {i j : Nat} (hne : i ≠ j) :
    ∀ n ∈ nodeListOf B i, n ∉ nodeListOf B j := by
  intro n hi hj
  rw [mem_nodeListOf] at hi hj
  rcases Nat.lt_or_ge i j with h | h
  · have h1 : nodeBase B (i + 1) ≤ nodeBase B j := nodeBase_mono B (by omega)
    have h2 : nodeBase B (i + 1) = nodeBase B i + rowLen (rowAt B i) ∨
        B.rows.length ≤ i := by
      by_cases hlt : i < B.rows.length
      · exact Or.inl (nodeBase_succ B hlt)
      · exact Or.inr (by omega)
    rcases h2 with h2 | h2
    · omega
    · -- row i is out of range: rowAt defaults to the empty row
      have : rowLen (rowAt B i) = 0 := by
        unfold rowAt rowLen
        rw [List.getD_eq_getElem?_getD, List.getElem?_eq_none (by omega)]
        rfl
      omega
  · have hji : j < i := by omega
    have h1 : nodeBase B (j + 1) ≤ nodeBase B i := nodeBase_mono B (by omega)
    by_cases hj' : j < B.rows.length
    · have h2 := nodeBase_succ B hj'
      omega
    · have : rowLen (rowAt B j) = 0 := by
        unfold rowAt rowLen
        rw [List.getD_eq_getElem?_getD, List.getElem?_eq_none (by omega)]
        rfl
      omega

theorem nodeListOf_lower (B : Build) {i n : Nat} (h : n ∈ nodeListOf B i) :
    1 + B.numCols ≤ n := by
  rw [mem_nodeListOf] at h
  have : 1 + B.numCols ≤ nodeBase B i := by unfold nodeBase; omega
  omega

theorem mem_colArena {B : Build} {γ : Nat} :
    γ ∈ colArena B ↔ 1 ≤ γ ∧ γ ≤ B.numCols := by
  unfold colArena
  simp only [List.mem_map, List.mem_range]
  constructor
  · rintro ⟨k, hk, rfl⟩; omega
  · rintro ⟨h1, h2⟩; exact ⟨γ - 1, by omega, by omega⟩

theorem colArena_nodup (B : Build) : (colArena B).Nodup :=
  List.Nodup.map (fun a b h => by omega) (List.nodup_range _)

theorem rowCols_length (B : Build) (i : Nat) :
    (rowCols B i).length = rowLen (rowAt B i) := by
  unfold rowCols rowLen
  simp

theorem rowPairs_map_fst (B : Build) (i : Nat) :
    (rowPairs B i).map Prod.fst = nodeListOf B i := by
  unfold rowPairs
  rw [List.map_fst_zip]
  rw [nodeListOf_length, rowCols_length]

theorem rowPairs_map_snd (B : Build) (i : Nat) :
    (rowPairs B i).map Prod.snd = rowCols B i := by
  unfold rowPairs
  rw [List.map_snd_zip]
  rw [nodeListOf_length, rowCols_length]

theorem rowNodesInCol_spec (B : Build) (i γ : Nat) :
    ∀ n ∈ rowNodesInCol B i γ, n ∈ nodeListOf B i ∧ (n, γ) ∈ rowPairs B i := by
  intro n hn
  unfold rowNodesInCol at hn
  simp only [List.mem_map, List.mem_filter] at hn
  obtain ⟨⟨n', γ'⟩, ⟨hp, hpγ⟩, rfl⟩ := hn
  have hγ : γ' = γ := by simpa using hpγ
  subst hγ
  exact ⟨(List.of_mem_zip hp).1, hp⟩

theorem rowNodesInCol_sublist (B : Build) (i γ : Nat) :
    (rowNodesInCol B i γ).Sublist (nodeListOf B i) := by
  unfold rowNodesInCol
  have h1 : ((rowPairs B i).filter (fun p => p.2 == γ)).Sublist (rowPairs B i) :=
    List.filter_sublist _
  have h2 := List.Sublist.map Prod.fst h1
  rw [rowPairs_map_fst] at h2
  exact h2

theorem rowNodesInCol_nodup (B : Build) (i γ : Nat) :
    (rowNodesInCol B i γ).Nodup :=
  (rowNodesInCol_sublist B i γ).nodup (nodeListOf_nodup B i)

/-- In a zip whose first components are distinct, a first component
determines the pair. -/
theorem mem_zip_unique : ∀ {l1 l2 : List Nat}, l1.Nodup → ∀ {n a b : Nat},
    (n, a) ∈ l1.zip l2 → (n, b) ∈ l1.zip l2 → a = b
  | [], _, _, _, _, _, h1, _ => absurd h1 (by simp)
  | x :: xs, [], _, _, _, _, h1, _ => absurd h1 (by simp)
  | x :: xs, y :: ys, hn, n, a, b, h1, h2 => by
    simp only [List.zip_cons_cons, List.mem_cons, Prod.mk.injEq] at h1 h2
    rcases h1 with ⟨rfl, rfl⟩ | h1
    · rcases h2 with ⟨_, rfl⟩ | h2
      · rfl
      · exact absurd ((List.of_mem_zip h2).1) (List.nodup_cons.mp hn).1
    · rcases h2 with ⟨rfl, rfl⟩ | h2
      · exact absurd ((List.of_mem_zip h1).1) (List.nodup_cons.mp hn).1
      · exact mem_zip_unique (List.nodup_cons.mp hn).2 h1 h2

/-- A node of row `i` lies in exactly the column its pair names. -/
theorem rowNodesInCol_unique (B : Build) {i γ γ' n : Nat}
    (h1 : n ∈ rowNodesInCol B i γ) (h2 : n ∈ rowNodesInCol B i γ') : γ = γ' := by
  have p1 := (rowNodesInCol_spec B i γ n h1).2
  have p2 := (rowNodesInCol_spec B i γ' n h2).2
  exact mem_zip_unique (nodeListOf_nodup B i) p1 p2

theorem colMembersUpTo_succ (B : Build) (k γ : Nat) :
    colMembersUpTo B (k + 1) γ
      = colMembersUpTo B k γ ++ rowNodesInCol B k γ := by
  unfold colMembersUpTo
  rw [List.range_succ, List.flatMap_append]
  simp

theorem mem_colMembersUpTo {B : Build} {k γ n : Nat} :
    n ∈ colMembersUpTo B k γ ↔ ∃ i, i < k ∧ n ∈ rowNodesInCol B i γ := by
  unfold colMembersUpTo
  simp [List.mem_flatMap, List.mem_range]

theorem colMembersUpTo_lower (B : Build) {k γ n : Nat}
    (h : n ∈ colMembersUpTo B k γ) : 1 + B.numCols ≤ n := by
  rw [mem_colMembersUpTo] at h
  obtain ⟨i, _, hi⟩ := h
  exact nodeListOf_lower B (rowNodesInCol_spec B i γ n hi).1

theorem colMembersUpTo_nodup (B : Build) (k γ : Nat) :
    (colMembersUpTo B k γ).Nodup := by
  induction k with
  | zero => exact List.nodup_nil
  | succ k ih =>
    rw [colMembersUpTo_succ]
    rw [List.nodup_append]
    refine ⟨ih, rowNodesInCol_nodup B k γ, ?_⟩
    intro n hn hn'
    rw [mem_colMembersUpTo] at hn
    obtain ⟨i, hik, hi⟩ := hn
    exact nodeListOf_disjoint B (by omega) n
      (rowNodesInCol_spec B i γ n hi).1
      ((rowNodesInCol_spec B k γ n hn').1)

/-- Distinct columns have disjoint member lists. -/
theorem colMembersUpTo_disjoint (B : Build) {k γ γ' n : Nat} (hne : γ ≠ γ')
    (h1 : n ∈ colMembersUpTo B k γ) (h2 : n ∈ colMembersUpTo B k γ') :
    False := by
  rw [mem_colMembersUpTo] at h1 h2
  obtain ⟨i, hik, hi⟩ := h1
  obtain ⟨j, hjk, hj⟩ := h2
  have hij : i = j := by
    by_contra hij
    exact nodeListOf_disjoint B hij n (rowNodesInCol_spec B i γ n hi).1
      (rowNodesInCol_spec B j γ' n hj).1
  subst hij
  exact hne (rowNodesInCol_unique B hi hj)

/-! ### Characterization of `addNode` and `linkRow` -/

/-- Field-level effect of a successful `addNode` call: the fresh node `n`
is spliced into the bottom of column `c`'s vertical ring, tagged with its
column and rowID, and the column's size is incremented. -/
theorem addNode_spec (s : DLX) (colIndex : Nat) (rid : Int) (c n : Nat)
    (hc : s.cols.get? colIndex = some c)
    (hn : n = 1 + s.cols.length + s.nodes.length) (hcn : c ≠ n) :
    addNode s colIndex rid = some
      ({ L := Function.update s.L n n,
         R := Function.update s.R n n,
         U := Function.update (Function.update s.U n (s.U c)) c n,
         D := Function.update (Function.update s.D n c) (s.U c) n,
         C := Function.update s.C n c,
         rowID := Function.update s.rowID n rid,
         size := Function.update s.size c (s.size c + 1),
         cols := s.cols, nodes := s.nodes ++ [n], sol := s.sol }, n) := by
  unfold addNode
  rw [hc]
  dsimp only [newNode, setD, setU]
  rw [← hn]
  have hUc : Function.update s.U n n c = s.U c :=
    Function.update_noteq hcn _ _
  refine congrArg some (Prod.ext ?_ rfl)
  simp only [hUc, Function.update_idem, Function.update_noteq hcn]

/-! ### Characterization of the constructors -/

theorem mkDLX_succ (n : Nat) : mkDLX (n + 1) = addColumn (mkDLX n) := by
  unfold mkDLX
  rw [List.range_succ, List.foldl_append, List.foldl_cons, List.foldl_nil]

theorem mkDLXIdea_succ (n : Nat) :
    mkDLXIdea (n + 1) = addColumnIdea (mkDLXIdea n) := by
  unfold mkDLXIdea
  rw [List.range_succ, List.foldl_append, List.foldl_cons, List.foldl_nil]

theorem hdrFinal_nodup (n : Nat) : (0 :: hdrFinal n).Nodup := by
  rw [List.nodup_cons]
  refine ⟨by simp [hdrFinal], ?_⟩
  exact List.Nodup.map (fun a b h => by omega)
    (List.nodup_reverse.mpr (List.nodup_range n))

theorem hdrInOrder_nodup (n : Nat) : (0 :: hdrInOrder n).Nodup := by
  rw [List.nodup_cons]
  refine ⟨by simp [hdrInOrder], ?_⟩
  exact List.Nodup.map (fun a b h => by omega) (List.nodup_range n)

theorem mkDLX_spec (n : Nat) :
    (mkDLX n).cols = hdrInOrder n ∧
    (mkDLX n).nodes = [] ∧
    (mkDLX n).sol = [] ∧
    Ring2 (mkDLX n).R (mkDLX n).L (0 :: hdrFinal n) ∧
    (∀ x, (mkDLX n).U x = x) ∧
    (∀ x, (mkDLX n).D x = x) ∧
    (∀ x, (mkDLX n).C x = x) ∧
    (∀ x, (mkDLX n).size x = 0) ∧
    (∀ x, (mkDLX n).rowID x = -1) := by
  induction n with
  | zero =>
    exact ⟨rfl, rfl, rfl, ⟨rfl, rfl⟩, fun x => rfl, fun x => rfl, fun x => rfl,
      fun x => rfl, fun x => rfl⟩
  | succ n ih =>
    obtain ⟨hcols, hnodes, hsol, hring, hU, hD, hC, hsize, hrow⟩ := ih
    have hlen : (mkDLX n).cols.length = n := by
      rw [hcols]; simp [hdrInOrder]
    have hlen2 : (mkDLX n).nodes.length = 0 := by rw [hnodes]; rfl
    have hc : 1 + (mkDLX n).cols.length + (mkDLX n).nodes.length = n + 1 := by
      rw [hlen, hlen2]
      omega
    have hzne : (0 : Nat) ≠ n + 1 := by omega
    rw [mkDLX_succ]
    have hR : (addColumn (mkDLX n)).R =
        Function.update (Function.update (mkDLX n).R (n + 1) ((mkDLX n).R 0))
          0 (n + 1) := by
      simp only [addColumn, newColumn, insertColumn, setR, setL]
      rw [hc, Function.update_idem,
        Function.update_noteq hzne _ _]
    have hL : (addColumn (mkDLX n)).L =
        Function.update (Function.update (mkDLX n).L (n + 1) 0)
          ((mkDLX n).R 0) (n + 1) := by
      simp only [addColumn, newColumn, insertColumn, setR, setL]
      rw [hc, Function.update_idem]
      simp only [Function.update_noteq hzne]
    refine ⟨?_, ?_, ?_, ?_, ?_, ?_, ?_, ?_, ?_⟩
    · show (mkDLX n).cols ++ [1 + (mkDLX n).cols.length + (mkDLX n).nodes.length]
        = hdrInOrder (n + 1)
      rw [hc, hcols]
      simp [hdrInOrder, List.range_succ]
    · show (mkDLX n).nodes = []
      exact hnodes
    · show (mkDLX n).sol = []
      exact hsol
    · rw [hR, hL]
      have hfresh : n + 1 ∉ 0 :: hdrFinal n := by
        simp [hdrFinal]
      have := ring2_cons_fresh hring (hdrFinal_nodup n) hfresh
      have hshape : hdrFinal (n + 1) = (n + 1) :: hdrFinal n := by
        simp [hdrFinal, List.range_succ]
      rw [hshape]
      exact this
    · intro x
      show Function.update (mkDLX n).U
        (1 + (mkDLX n).cols.length + (mkDLX n).nodes.length)
        (1 + (mkDLX n).cols.length + (mkDLX n).nodes.length) x = x
      rw [Function.update_apply]
      split
      · next h => rw [h]
      · exact hU x
    · intro x
      show Function.update (mkDLX n).D
        (1 + (mkDLX n).cols.length + (mkDLX n).nodes.length)
        (1 + (mkDLX n).cols.length + (mkDLX n).nodes.length) x = x
      rw [Function.update_apply]
      split
      · next h => rw [h]
      · exact hD x
    · intro x
      show Function.update (mkDLX n).C
        (1 + (mkDLX n).cols.length + (mkDLX n).nodes.length)
        (1 + (mkDLX n).cols.length + (mkDLX n).nodes.length) x = x
      rw [Function.update_apply]
      split
      · next h => rw [h]
      · exact hC x
    · intro x
      show Function.update (mkDLX n).size
        (1 + (mkDLX n).cols.length + (mkDLX n).nodes.length) 0 x = 0
      rw [Function.update_apply]
      split
      · rfl
      · exact hsize x
    · intro x
      show Function.update (mkDLX n).rowID
        (1 + (mkDLX n).cols.length + (mkDLX n).nodes.length) (-1) x = -1
      rw [Function.update_apply]
      split
      · rfl
      · exact hrow x

theorem mkDLXIdea_spec (n : Nat) :
    (mkDLXIdea n).cols = hdrInOrder n ∧
    (mkDLXIdea n).nodes = [] ∧
    Ring2 (mkDLXIdea n).L (mkDLXIdea n).R (0 :: hdrFinal n) := by
  induction n with
  | zero => exact ⟨rfl, rfl, ⟨rfl, rfl⟩⟩
  | succ n ih =>
    obtain ⟨hcols, hnodes, hring⟩ := ih
    have hlen : (mkDLXIdea n).cols.length = n := by
      rw [hcols]; simp [hdrInOrder]
    have hlen2 : (mkDLXIdea n).nodes.length = 0 := by rw [hnodes]; rfl
    have hc : 1 + (mkDLXIdea n).cols.length + (mkDLXIdea n).nodes.length
        = n + 1 := by
      rw [hlen, hlen2]; omega
    have hzne : (0 : Nat) ≠ n + 1 := by omega
    rw [mkDLXIdea_succ]
    have hL : (addColumnIdea (mkDLXIdea n)).L =
        Function.update (Function.update (mkDLXIdea n).L (n + 1)
          ((mkDLXIdea n).L 0)) 0 (n + 1) := by
      simp only [addColumnIdea, newColumn, insertColumnIdea, setR, setL]
      rw [hc, Function.update_idem]
      simp only [Function.update_noteq hzne]
    have hR : (addColumnIdea (mkDLXIdea n)).R =
        Function.update (Function.update (mkDLXIdea n).R (n + 1) 0)
          ((mkDLXIdea n).L 0) (n + 1) := by
      simp only [addColumnIdea, newColumn, insertColumnIdea, setR, setL]
      rw [hc, Function.update_idem]
      simp only [Function.update_noteq hzne]
    refine ⟨?_, ?_, ?_⟩
    · show (mkDLXIdea n).cols ++
        [1 + (mkDLXIdea n).cols.length + (mkDLXIdea n).nodes.length]
        = hdrInOrder (n + 1)
      rw [hc, hcols]
      simp [hdrInOrder, List.range_succ]
    · show (mkDLXIdea n).nodes = []
      exact hnodes
    · rw [hL, hR]
      have hfresh : n + 1 ∉ 0 :: hdrFinal n := by
        simp [hdrFinal]
      have := ring2_cons_fresh hring (hdrFinal_nodup n) hfresh
      have hshape : hdrFinal (n + 1) = (n + 1) :: hdrFinal n := by
        simp [hdrFinal, List.range_succ]
      rw [hshape]
      exact this

theorem hdrFinal_reverse (n : Nat) : (hdrFinal n).reverse = hdrInOrder n := by
  simp [hdrFinal, hdrInOrder]

/-- A fueled right-walk follows the loop-processing list exactly. -/
theorem hdrRWalkFrom_spec (s : DLX) :
    ∀ (l : List Nat) (fuel j : Nat), StepsTo s.R 0 j l →
      l.length + 1 ≤ fuel → hdrRWalkFrom s fuel j = some l := by
  intro l
  induction l with
  | nil =>
    intro fuel j hst hf
    cases fuel with
    | zero => omega
    | succ f =>
      have hj : j = 0 := hst
      show (if j = 0 then some [] else _) = some []
      rw [if_pos hj]
  | cons x xs ih =>
    intro fuel j hst hf
    obtain ⟨rfl, hx0, hrest⟩ := hst
    cases fuel with
    | zero => simp at hf
    | succ f =>
      show (if j = 0 then some [] else
        (hdrRWalkFrom s f (s.R j)).map (fun l => j :: l)) = some (j :: xs)
      rw [if_neg hx0, ih f (s.R j) hrest (by simpa using Nat.lt_succ_iff.mp hf)]
      rfl

/-- The header walk of a state whose header ring is `0 :: hdr` returns
exactly `hdr`. -/
theorem hdrRWalk_ring {s : DLX} {hdr : List Nat}
    (h : Ring2 s.R s.L (0 :: hdr)) (hn : (0 :: hdr).Nodup) {fuel : Nat}
    (hf : hdr.length + 1 ≤ fuel) : hdrRWalk s fuel = some hdr :=
  hdrRWalkFrom_spec s hdr fuel (s.R 0) (ring2_stepsTo h hn) hf

/-! ### The solution vector is only ever touched by push/pop in `search` -/

theorem coverRow_sol : ∀ (fuel row j : Nat) (s t : DLX),
    coverRow fuel row j s = some t → t.sol = s.sol := by
  intro fuel
  induction fuel with
  | zero => intro row j s t h; exact absurd h (by simp [coverRow])
  | succ f ih =>
    intro row j s t h
    rw [coverRow] at h
    split at h
    · cases h; rfl
    · rw [ih row _ _ t h, spliceOut_sol]

theorem coverCols_sol : ∀ (fuel lf c r : Nat) (s t : DLX),
    coverCols fuel lf c r s = some t → t.sol = s.sol := by
  intro fuel
  induction fuel with
  | zero => intro lf c r s t h; exact absurd h (by simp [coverCols])
  | succ f ih =>
    intro lf c r s t h
    rw [coverCols] at h
    split at h
    · cases h; rfl
    · rename_i hne
      cases hrow : coverRow lf r (s.R r) s with
      | none => rw [hrow] at h; cases h
      | some s' =>
        rw [hrow] at h
        rw [ih lf c _ s' t h, coverRow_sol lf r (s.R r) s s' hrow]

theorem cover_sol (lf c : Nat) (s t : DLX) (h : cover lf c s = some t) :
    t.sol = s.sol := by
  unfold cover at h
  dsimp only at h
  have := coverCols_sol lf lf c _ _ t h
  exact this

theorem uncoverRow_sol : ∀ (fuel row j : Nat) (s t : DLX),
    uncoverRow fuel row j s = some t → t.sol = s.sol := by
  intro fuel
  induction fuel with
  | zero => intro row j s t h; exact absurd h (by simp [uncoverRow])
  | succ f ih =>
    intro row j s t h
    rw [uncoverRow] at h
    split at h
    · cases h; rfl
    · rw [ih row _ _ t h, spliceIn_sol]

theorem uncoverCols_sol : ∀ (fuel lf c r : Nat) (s t : DLX),
    uncoverCols fuel lf c r s = some t → t.sol = s.sol := by
  intro fuel
  induction fuel with
  | zero => intro lf c r s t h; exact absurd h (by simp [uncoverCols])
  | succ f ih =>
    intro lf c r s t h
    rw [uncoverCols] at h
    split at h
    · cases h; rfl
    · cases hrow : uncoverRow lf r (s.L r) s with
      | none => rw [hrow] at h; cases h
      | some s' =>
        rw [hrow] at h
        rw [ih lf c _ s' t h, uncoverRow_sol lf r (s.L r) s s' hrow]

theorem uncover_sol (lf c : Nat) (s t : DLX) (h : uncover lf c s = some t) :
    t.sol = s.sol := by
  rw [uncover] at h
  cases hcols : uncoverCols lf lf c (s.U c) s with
  | none => rw [hcols] at h; cases h
  | some s1 =>
    rw [hcols] at h
    cases h
    show s1.sol = s.sol
    exact uncoverCols_sol lf lf c _ s s1 hcols

theorem coverAllR_sol : ∀ (fuel lf r j : Nat) (s t : DLX),
    coverAllR fuel lf r j s = some t → t.sol = s.sol := by
  intro fuel
  induction fuel with
  | zero => intro lf r j s t h; exact absurd h (by simp [coverAllR])
  | succ f ih =>
    intro lf r j s t h
    rw [coverAllR] at h
    split at h
    · cases h; rfl
    · cases hcov : cover lf (s.C j) s with
      | none => rw [hcov] at h; cases h
      | some s' =>
        rw [hcov] at h
        rw [ih lf r _ s' t h, cover_sol lf (s.C j) s s' hcov]

theorem uncoverAllL_sol : ∀ (fuel lf r j : Nat) (s t : DLX),
    uncoverAllL fuel lf r j s = some t → t.sol = s.sol := by
  intro fuel
  induction fuel with
  | zero => intro lf r j s t h; exact absurd h (by simp [uncoverAllL])
  | succ f ih =>
    intro lf r j s t h
    rw [uncoverAllL] at h
    split at h
    · cases h; rfl
    · cases hcov : uncover lf (s.C j) s with
      | none => rw [hcov] at h; cases h
      | some s' =>
        rw [hcov] at h
        rw [ih lf r _ s' t h, uncover_sol lf (s.C j) s s' hcov]

/-- The row loop restores the solution vector on every failing path: each
`push_back` is matched by a `pop_back`. -/
theorem searchRowsAux_sol (rec : DLX → Option (Bool × DLX)) (lf : Nat)
    (hrec : ∀ s b s', rec s = some (b, s') → b = false → s'.sol = s.sol) :
    ∀ (k c r : Nat) (s : DLX) (b : Bool) (s' : DLX),
      searchRowsAux rec lf k c r s = some (b, s') → b = false →
      s'.sol = s.sol := by
  intro k
  induction k with
  | zero => intro c r s b s' h; exact absurd h (by simp [searchRowsAux])
  | succ k ih =>
    intro c r s b s' h hb
    simp only [searchRowsAux] at h
    split at h
    · cases hunc : uncover lf c s with
      | none => rw [hunc] at h; cases h
      | some t =>
        rw [hunc] at h
        cases h
        exact uncover_sol lf c s s' hunc
    · cases hcav : coverAllR lf lf r (s.R r)
        { s with sol := s.sol ++ [s.rowID r] } with
      | none => rw [hcav] at h; cases h
      | some s2 =>
        rw [hcav] at h
        dsimp only at h
        cases hr : rec s2 with
        | none => rw [hr] at h; cases h
        | some p =>
          rw [hr] at h
          obtain ⟨b2, t⟩ := p
          cases b2 with
          | true =>
            dsimp only at h
            cases h
            simp at hb
          | false =>
            dsimp only at h
            cases hual : uncoverAllL lf lf r (t.L r) t with
            | none => rw [hual] at h; cases h
            | some s3 =>
              rw [hual] at h
              dsimp only at h
              have hs4 := ih c _ _ b s' h hb
              have ht : t.sol = s2.sol := hrec s2 false t hr rfl
              have hs2 : s2.sol = s.sol ++ [s.rowID r] := by
                have := coverAllR_sol lf lf r _ _ s2 hcav
                simpa using this
              have hs3 : s3.sol = t.sol := uncoverAllL_sol lf lf r _ t s3 hual
              rw [hs4]
              show (s3.sol.dropLast) = s.sol
              rw [hs3, ht, hs2, List.dropLast_concat]

/-- `search` restores the solution vector whenever it returns `false`. -/
theorem search_sol : ∀ (dep lf : Nat) (s : DLX) (b : Bool) (s' : DLX),
    search dep lf s = some (b, s') → b = false → s'.sol = s.sol := by
  intro dep
  induction dep with
  | zero => intro lf s b s' h; exact absurd h (by simp [search])
  | succ dep ih =>
    intro lf s b s' h hb
    rw [search] at h
    split at h
    · cases h; simp at hb
    · cases hcc : chooseCol lf s (s.R 0) none 1000000000 with
      | none => rw [hcc] at h; cases h
      | some p =>
        rw [hcc] at h
        obtain ⟨copt, m⟩ := p
        cases copt with
        | none => simp only at h; cases h; rfl
        | some c =>
          simp only at h
          split at h
          · cases h; rfl
          · cases hcov : cover lf c s with
            | none => rw [hcov] at h; cases h
            | some s1 =>
              rw [hcov] at h
              have := searchRowsAux_sol (search dep lf) lf
                (fun u b' u' hu hb' => ih lf u b' u' hu hb')
                lf c (s1.D c) s1 b s' h hb
              rw [this, cover_sol lf c s s1 hcov]

/-! ### Concrete instances used by counterexamples and witnesses -/

/-- Two-column matrix with a single candidate row (rowID 1) covering only
column index 0, after which that row is pre-selected the way
`applyInitialSudoku` does it (push its rowID, cover its columns).  Column
index 1 is left live with no candidate row, so a subsequent `search` must
fail. -/
def preselectedStuck : Option DLX :=
  match addNode (mkDLX 2) 0 1 with
  | none => none
  | some p => preselect 10 50 p.2 (linkRow [p.2] p.1)

/-- The state reached by `preselectedStuck` (with a junk default that is
never hit). -/
def preStuckS : DLX := preselectedStuck.getD emptyDLX

/-- The state returned by the failing search on `preStuckS`. -/
def preStuckS' : DLX := ((search 10 50 preStuckS).getD (true, emptyDLX)).2

/-- Two-column matrix with a single candidate row (rowID 5) covering only
column index 0 and nothing pre-selected: unsatisfiable, empty solution. -/
def unsatPlain : DLX :=
  match addNode (mkDLX 2) 0 5 with
  | none => emptyDLX
  | some p => linkRow [p.2] p.1

/-- The state returned by the failing search on `unsatPlain`. -/
def unsatPlainS' : DLX := ((search 10 50 unsatPlain).getD (true, emptyDLX)).2

/-! ### Claim theorems -/

/-- C3 (counterexample): in the `DLSS_final.cpp` constructor with two
columns, walking the header ring to the right from `head` visits the
columns in the order `[2, 1]` (arena indices of column 1 then column 0),
not in insertion order `[1, 2]` as the claim states. -/
theorem C3_counterexample :
    hdrRWalk (mkDLX 2) 10 = some [2, 1] ∧ (mkDLX 2).cols = [1, 2] ∧
      hdrRWalk (mkDLX 2) 10 ≠ some [1, 2] :=
  ⟨rfl, rfl, by decide⟩

/-- C3 (amended): after constructing a matrix with `numCols` columns, the
`DLSS_final.cpp` constructor (insert immediately right of `head`) makes the
left-to-right `R`-walk of the header ring visit the columns in reverse
insertion order `numCols-1, ..., 0`, while the `DLSS.cpp` constructor
(insert before `head`) yields insertion order `0, ..., numCols-1`. -/
theorem C3_header_order (n : Nat) :
    hdrRWalk (mkDLX n) (n + 2) = some (hdrFinal n) ∧
    hdrRWalk (mkDLXIdea n) (n + 2) = some (hdrInOrder n) := by
  constructor
  · refine hdrRWalk_ring (mkDLX_spec n).2.2.2.1 (hdrFinal_nodup n) ?_
    simp only [hdrFinal, List.length_map, List.length_reverse,
      List.length_range]
    omega
  · have h := (mkDLXIdea_spec n).2.2
    have hrev := chain2_reverse h
    rw [hdrFinal_reverse] at hrev
    refine hdrRWalk_ring hrev (hdrInOrder_nodup n) ?_
    simp only [hdrInOrder, List.length_map, List.length_range]
    omega

/-- C4 (code evaluated at the failing input): on a one-column matrix the
call `addNode(1, 7)` reaches the unchecked vector access `cols[1]`, which
is out of range — the embedding's faithful rendering of that access is
`cols.get? 1 = none`, so the call has no defined result rather than being
rejected as a checked precondition violation. -/
theorem C4_addNode_out_of_range :
    (mkDLX 1).cols.get? 1 = none ∧ addNode (mkDLX 1) 1 7 = none :=
  ⟨rfl, rfl⟩

/-- C8 (counterexample): after pre-selecting the only row (rowID 1) of a
two-column matrix, the exhausted top-level `search` returns `false` but the
solution vector still holds `[1]` — it is not in an emptied state. -/
theorem C8_counterexample :
    (preselectedStuck.bind (search 10 50)).map (fun p => (p.1, p.2.sol))
        = some (false, [1]) ∧ ([1] : List Int) ≠ [] :=
  ⟨rfl, by decide⟩

/-- C8 (amended): when the top-level `search` exhausts all branches and
returns `false`, the solution vector holds exactly its pre-call contents —
in particular it is emptied only when nothing was pre-selected (pre-call
solution empty). -/
theorem C8_emptied_no_preselect (dep lf : Nat) (s s' : DLX)
    (h : search dep lf s = some (false, s')) (h0 : s.sol = []) :
    s'.sol = [] := by
  rw [search_sol dep lf s false s' h rfl, h0]

/-- Witness for C8: the concrete unsatisfiable two-column matrix with
nothing pre-selected; the failed search leaves the solution empty. -/
theorem C8_emptied_no_preselect_witness :
    search 10 50 unsatPlain = some (false, unsatPlainS') ∧
      unsatPlain.sol = [] ∧ unsatPlainS'.sol = [] :=
  ⟨rfl, rfl, C8_emptied_no_preselect 10 50 unsatPlain unsatPlainS' rfl rfl⟩

/-- C10: a `search` call that returns `false` leaves the solution vector
holding exactly its pre-call contents (every push on the failure path is
matched by a pop); in particular rowIDs recorded by pre-covering given rows
remain in the solution vector after a failed search. -/
theorem C10_sol_restored (dep lf : Nat) (s s' : DLX)
    (h : search dep lf s = some (false, s')) : s'.sol = s.sol :=
  search_sol dep lf s false s' h rfl

/-- Witness for C10: on the pre-selected stuck instance the failed search
leaves the solution vector equal to its pre-call contents `[1]`. -/
theorem C10_sol_restored_witness :
    search 10 50 preStuckS = some (false, preStuckS') ∧
      preStuckS'.sol = preStuckS.sol ∧ preStuckS.sol = [1] :=
  ⟨rfl, C10_sol_restored 10 50 preStuckS preStuckS' rfl, rfl⟩

end DLSS
